import Mathlib

/-!
Verification of the libMesh `Parallel::Request` handle
(`include/libmesh/request.h`): a wrapper around a native non-blocking
MPI request, carrying an owned chain of prior requests
(`_prior_request`, a `unique_ptr<Request>`) and a shared, manually
reference-counted list of post-wait work
(`post_wait_work : pair<vector<PostWaitWork*>, unsigned int> *`).

Shallow embedding conventions:
* the native handle `MPI_Request` is a `Nat`; `MPI_REQUEST_NULL` is `0`;
  `MPI_Wait` produces a `Status`, modelled as a `Nat` given by an
  environment `env : Nat → Nat`, and resets the handle to
  `MPI_REQUEST_NULL`; `MPI_Test` consults `complete : Nat → Bool` and on
  success likewise resets the handle (per the MPI standard).
* `PostWaitWork *` pointers are `Nat` identities; a slot of the work
  vector is `Option Nat` (`none` after `delete item; item = nullptr`).
* the heap of `post_wait_work` allocations is explicit: a list of cells,
  each `none` (freed) or `some` WorkList; pointers are cell indices.
* `libmesh_assert` is modelled as a `Bool` flag carried by the
  operations (debug-build check; execution continues as in an optimized
  build, where running a `nullptr` item is modelled as a no-op), except
  in `add_prior_request`, where the asserted precondition is the
  documented InvariantViolation and the operation is modelled as
  failing (`Option`).
-/

/-- `MPI_REQUEST_NULL`, the sentinel "nothing outstanding" handle. -/
def MPI_REQUEST_NULL : Nat := 0

/-- One observable event of an execution: `MPI_Wait` returning on a native
handle, or a `PostWaitWork` item being run. -/
inductive Event : Type where
  | waited (handle : Nat) : Event
  | ran (item : Nat) : Event
deriving DecidableEq

/-- The pointee of `post_wait_work`: `first` is the vector of
`PostWaitWork *` (a slot becomes `none` once run and deleted), `second`
is the reference count. -/
structure WorkList : Type where
  first : List (Option Nat)
  second : Nat
deriving DecidableEq

/-- The heap of `post_wait_work` allocations; a pointer is an index into
`cells`, and a freed cell is `none`. -/
structure Heap : Type where
  cells : List (Option WorkList)
deriving DecidableEq

namespace Heap

/-- Dereference pointer `i` (out of range or freed give `none`). -/
def get (h : Heap) (i : Nat) : Option WorkList :=
  (h.cells.getD i none)

/-- Overwrite cell `i` (no-op when out of range). -/
def set (h : Heap) (i : Nat) (v : Option WorkList) : Heap :=
  ⟨h.cells.set i v⟩

/-- `new pair<vector<PostWaitWork*>, unsigned int>(...)`: allocate a fresh
cell, returning the heap and the pointer. -/
def alloc (h : Heap) (wl : WorkList) : Heap × Nat :=
  (⟨h.cells ++ [some wl]⟩, h.cells.length)

/-- `post_wait_work->second++`: increment the reference count behind a
live pointer (dangling pointers leave the heap unchanged; they cannot
occur in well-formed states). -/
def incref (h : Heap) (i : Nat) : Heap :=
  match h.get i with
  | none => h
  | some wl => h.set i (some ⟨wl.first, wl.second + 1⟩)

/-- Increment through an optional pointer (`if (post_wait_work)
post_wait_work->second++`). -/
def increfOpt (h : Heap) (o : Option Nat) : Heap :=
  match o with
  | none => h
  | some i => h.incref i

/-- The body of `Request::cleanup` behind a live pointer: decrement the
use count; at zero, debug-assert every work slot has been run
(`libmesh_assert(!item)`) and free the pair.  Returns
`(heap, freed, debug-assertions-passed)`. -/
def releaseAt (h : Heap) (i : Nat) : Heap × Bool × Bool :=
  match h.get i with
  | none => (h, false, false)
  | some wl =>
    if wl.second - 1 = 0 then
      (h.set i none, true, wl.first.all (·.isNone))
    else
      (h.set i (some ⟨wl.first, wl.second - 1⟩), false, true)

/-- `post_wait_work->first.push_back(work)`. -/
def appendWork (h : Heap) (i : Nat) (w : Nat) : Heap :=
  match h.get i with
  | none => h
  | some wl => h.set i (some ⟨wl.first ++ [some w], wl.second⟩)

end Heap

/-- `libMesh::Parallel::Request`: the native handle `_request`, the owned
prior chain `_prior_request` (the two constructors distinguish
`nullptr` from an owned link), and the `post_wait_work` pointer. -/
inductive Request : Type where
  | mk (request : Nat) (pww : Option Nat) : Request
  | mkPrior (request : Nat) (priorReq : Request) (pww : Option Nat) : Request
deriving DecidableEq

namespace Request

/-- The `_request` member. -/
def request : Request → Nat
  | .mk n _ => n
  | .mkPrior n _ _ => n

/-- The `_prior_request` member (`none` = `nullptr`). -/
def priorRequest : Request → Option Request
  | .mk _ _ => none
  | .mkPrior _ q _ => some q

/-- The `post_wait_work` pointer (`none` = `nullptr`). -/
def postWaitWork : Request → Option Nat
  | .mk _ w => w
  | .mkPrior _ _ w => w

/-- Rebuild a request from its three members. -/
def build (n : Nat) (p : Option Request) (w : Option Nat) : Request :=
  match p with
  | none => .mk n w
  | some q => .mkPrior n q w

/-- `Request::Request()`: `_request(MPI_REQUEST_NULL),
post_wait_work(nullptr)`. -/
def emptyReq : Request := .mk MPI_REQUEST_NULL none

/-- `Request::Request(const request & r)`: wrap a native handle. -/
def ofNative (n : Nat) : Request := .mk n none

/-- `Request::Request(const Request & other)`: copy `_request`, share
`post_wait_work` (incrementing its count), and deep-copy the prior
chain link by link (each copied link also incrementing its own shared
count).  Returns the copy and the updated heap. -/
def copy : Request → Heap → Request × Heap
  | .mk n w, h => (.mk n w, h.increfOpt w)
  | .mkPrior n q w, h =>
    let (q', h1) := q.copy h
    (.mkPrior n q' w, h1.increfOpt w)

/-- `Request::cleanup()`: if `post_wait_work` is non-null, decrement the
use count and, at zero, debug-check and free it, nulling the pointer.
Returns the updated request, heap, and debug flag. -/
def cleanup : Request → Heap → Request × Heap × Bool
  | r, h =>
    match r.postWaitWork with
    | none => (r, h, true)
    | some i =>
      let (h', freed, ok) := h.releaseAt i
      (build r.request r.priorRequest (if freed then none else some i), h', ok)

/-- `Request::~Request()`: run `cleanup`, then the implicit member
destructors destroy the owned prior chain recursively (each link
running its own `cleanup`). -/
def destroy : Request → Heap → Heap × Bool
  | .mk n w, h =>
    let (_, h1, ok) := cleanup (.mk n w) h
    (h1, ok)
  | .mkPrior n q w, h =>
    let (_, h1, ok1) := cleanup (.mkPrior n q w) h
    let (h2, ok2) := q.destroy h1
    (h2, ok1 && ok2)

/-- `Request::operator=(const Request & other)`: `cleanup()`; copy
`_request` and `post_wait_work`; if `other` owns a prior, deep-copy it
and let the `unique_ptr` assignment destroy the previously owned chain;
finally increment the shared count.  (When `other` owns no prior the
target's own chain is left in place.) -/
def assign (tgt src : Request) (h : Heap) : Request × Heap × Bool :=
  let (t1, h1, ok1) := tgt.cleanup h
  match src.priorRequest with
  | none =>
    (build src.request t1.priorRequest src.postWaitWork,
     h1.increfOpt src.postWaitWork, ok1)
  | some q =>
    let (q', h2) := q.copy h1
    let (h3, ok2) :=
      match t1.priorRequest with
      | none => (h2, true)
      | some oldq => oldq.destroy h2
    (build src.request (some q') src.postWaitWork,
     h3.increfOpt src.postWaitWork, ok1 && ok2)

/-- `Request::operator=(const request & r)`: `cleanup()`, replace the
native handle, null the `post_wait_work` pointer; the prior chain is
not touched. -/
def assignNative (tgt : Request) (n : Nat) (h : Heap) : Request × Heap × Bool :=
  let (t1, h1, ok) := tgt.cleanup h
  (build n t1.priorRequest none, h1, ok)

end Request

/-- The drain loop of `Request::wait`: `for (auto & item :
post_wait_work->first) { libmesh_assert(item); item->run(); delete item;
item = nullptr; }`.  Returns the heap (all slots nulled), the run events
in order, and the debug flag (every slot was non-null). -/
def drain (h : Heap) (o : Option Nat) : Heap × List Event × Bool :=
  match o with
  | none => (h, [], true)
  | some i =>
    match h.get i with
    | none => (h, [], false)
    | some wl =>
      (h.set i (some ⟨wl.first.map (fun _ => none), wl.second⟩),
       wl.first.filterMap (fun it => it.map Event.ran),
       wl.first.all (·.isSome))

namespace Request

/-- Result of `Request::wait`: updated heap and request, the returned
`Status`, the trace of completions and work runs, and the debug flag. -/
structure WaitResult : Type where
  heap : Heap
  req : Request
  stat : Nat
  trace : List Event
  ok : Bool
deriving DecidableEq

/-- `Request::wait()`: recursively wait on the prior chain first
(discarding its statuses), then `MPI_Wait` on `_request` (producing this
handle's own status and nulling the handle), then drain the post-wait
work list; return this handle's own status. -/
def wait (env : Nat → Nat) : Request → Heap → WaitResult
  | .mk n w, h =>
    let (h1, evs, ok) := drain h w
    ⟨h1, .mk MPI_REQUEST_NULL w, env n, Event.waited n :: evs, ok⟩
  | .mkPrior n q w, h =>
    let r := q.wait env h
    let (h1, evs, ok) := drain r.heap w
    ⟨h1, .mkPrior MPI_REQUEST_NULL r.req w, env n,
     r.trace ++ Event.waited n :: evs, r.ok && ok⟩

/-- `Request::test()`: `MPI_Test` on `_request` — non-blocking; a test on
`MPI_REQUEST_NULL` succeeds immediately, a successful test resets the
handle to `MPI_REQUEST_NULL` (MPI semantics); when it reports
completion, debug-assert `_request == MPI_REQUEST_NULL`.  Returns
`(val, request, heap, assertions-passed)`: the body reads nothing but
`_request`, so the heap and the other members pass through. -/
def test (complete : Nat → Bool) (r : Request) (h : Heap) :
    Bool × Request × Heap × Bool :=
  let val := r.request = MPI_REQUEST_NULL || complete r.request
  if val then
    let r' := build MPI_REQUEST_NULL r.priorRequest r.postWaitWork
    (true, r', h, r'.request = MPI_REQUEST_NULL)
  else
    (false, r, h, true)

/-- `Request::add_prior_request(const Request & req)`:
`libmesh_assert(!req._prior_request)` — modelled as failure (`none`,
the InvariantViolation) when `req` already owns a prior; otherwise copy
`req`, hand the copy ownership of the current `_prior_request`, and
install it as the new `_prior_request`. -/
def add_prior_request (self : Request) (req : Request) (h : Heap) :
    Option (Request × Heap) :=
  match req.priorRequest with
  | some _ => none
  | none =>
    let (newPrior, h1) := req.copy h
    some (build self.request
            (some (build newPrior.request self.priorRequest newPrior.postWaitWork))
            self.postWaitWork,
          h1)

/-- `Request::add_post_wait_work(PostWaitWork * work)`: lazily allocate
the shared pair with use count 1, then push the item. -/
def add_post_wait_work (self : Request) (w : Nat) (h : Heap) :
    Request × Heap :=
  match self.postWaitWork with
  | none =>
    let (h1, i) := h.alloc ⟨[], 1⟩
    (build self.request self.priorRequest (some i), h1.appendWork i w)
  | some i => (self, h.appendWork i w)

end Request

/-! ### Specification-level descriptions and the sharing invariant -/

/-- The run events the currently queued (not yet run) items of a work
list would produce, front to back. -/
def runsOf (h : Heap) (o : Option Nat) : List Event :=
  match o with
  | none => []
  | some i =>
    match h.get i with
    | none => []
    | some wl => wl.first.filterMap (fun it => it.map Event.ran)

/-- Modelled from the spec: the trace a `wait()` must produce — descend
to the oldest-attached link first and unwind outward; for each handle,
its own completion is followed by its queued work front-to-back. -/
def specWaitTrace (h : Heap) : Request → List Event
  | .mk n w => Event.waited n :: runsOf h w
  | .mkPrior n q w => specWaitTrace h q ++ (Event.waited n :: runsOf h w)

/-- How many references the links of one request chain hold on heap
cell `i` (each link with `post_wait_work == &cell i` counts once). -/
def Request.refs (i : Nat) : Request → Nat
  | .mk _ w => if w = some i then 1 else 0
  | .mkPrior _ q w => (if w = some i then 1 else 0) + q.refs i

/-- Total number of references a collection of root handles holds on
heap cell `i`, chains included. -/
def totalRefs (rs : List Request) (i : Nat) : Nat :=
  (rs.map (Request.refs i)).sum

/-- The `post_wait_work` pointers along a chain, this handle's own
first. -/
def Request.spine : Request → List (Option Nat)
  | .mk _ w => [w]
  | .mkPrior _ q w => w :: q.spine

/-- The well-formedness invariant of a heap together with the root
handles sharing it: every live work list's use count equals the number
of chain links referencing it, and freed or unallocated cells are
unreferenced. -/
def wf (h : Heap) (rs : List Request) : Prop :=
  ∀ i, (∀ wl, h.get i = some wl → wl.second = totalRefs rs i) ∧
       (h.get i = none → totalRefs rs i = 0)

/-- One step of the handle lifecycle: construct, copy-construct,
destroy, copy-assign, native-assign, chain, enqueue work, wait, test.
Copy and assignment sources are other live roots. -/
inductive Step : Heap → List Request → Heap → List Request → Prop where
  | newEmpty (h : Heap) (rs : List Request) :
      Step h rs h (rs ++ [Request.emptyReq])
  | newNative (h : Heap) (rs : List Request) (n : Nat) :
      Step h rs h (rs ++ [Request.ofNative n])
  | copyNew (h : Heap) (pre post : List Request) (r : Request) :
      Step h (pre ++ r :: post) (r.copy h).2
        ((pre ++ r :: post) ++ [(r.copy h).1])
  | destroyAt (h : Heap) (pre post : List Request) (r : Request) :
      Step h (pre ++ r :: post) (r.destroy h).1 (pre ++ post)
  | assignAt (h : Heap) (pre post : List Request) (r s : Request)
      (hs : s ∈ pre ++ post) :
      Step h (pre ++ r :: post) (r.assign s h).2.1
        (pre ++ (r.assign s h).1 :: post)
  | assignNativeAt (h : Heap) (pre post : List Request) (r : Request) (n : Nat) :
      Step h (pre ++ r :: post) (r.assignNative n h).2.1
        (pre ++ (r.assignNative n h).1 :: post)
  | addPriorAt (h : Heap) (pre post : List Request) (r s r' : Request)
      (h' : Heap) (hs : s ∈ pre ++ post)
      (hres : r.add_prior_request s h = some (r', h')) :
      Step h (pre ++ r :: post) h' (pre ++ r' :: post)
  | addWorkAt (h : Heap) (pre post : List Request) (r : Request) (w : Nat) :
      Step h (pre ++ r :: post) (r.add_post_wait_work w h).2
        (pre ++ (r.add_post_wait_work w h).1 :: post)
  | waitAt (h : Heap) (pre post : List Request) (r : Request) (env : Nat → Nat) :
      Step h (pre ++ r :: post) (r.wait env h).heap
        (pre ++ (r.wait env h).req :: post)
  | testAt (h : Heap) (pre post : List Request) (r : Request)
      (complete : Nat → Bool) :
      Step h (pre ++ r :: post) (r.test complete h).2.2.1
        (pre ++ (r.test complete h).2.1 :: post)

/-! ### Heap lemmas -/

namespace Heap

theorem get_eq (h : Heap) (i : Nat) : h.get i = (h.cells[i]?).getD none := by
  simp [Heap.get]

theorem get_isSome_lt (h : Heap) (i : Nat) (wl : WorkList)
    (hw : h.get i = some wl) : i < h.cells.length := by
  by_contra hlt
  rw [get_eq, List.getElem?_eq_none (Nat.le_of_not_lt hlt)] at hw
  simp at hw

theorem get_set_ne (h : Heap) (i j : Nat) (v : Option WorkList)
    (hij : i ≠ j) : (h.set i v).get j = h.get j := by
  simp [get_eq, Heap.set, List.getElem?_set_ne hij]

theorem get_set_self (h : Heap) (i : Nat) (v : Option WorkList)
    (hi : i < h.cells.length) : (h.set i v).get i = v := by
  simp [get_eq, Heap.set, List.getElem?_set_self hi]

end Heap

/-! ### Request structure lemmas -/

namespace Request

@[simp] theorem request_mk (n w) : (Request.mk n w).request = n := rfl
@[simp] theorem request_mkPrior (n q w) : (Request.mkPrior n q w).request = n := rfl
@[simp] theorem priorRequest_mk (n w) : (Request.mk n w).priorRequest = none := rfl
@[simp] theorem priorRequest_mkPrior (n q w) :
    (Request.mkPrior n q w).priorRequest = some q := rfl
@[simp] theorem postWaitWork_mk (n w) : (Request.mk n w).postWaitWork = w := rfl
@[simp] theorem postWaitWork_mkPrior (n q w) :
    (Request.mkPrior n q w).postWaitWork = w := rfl

@[simp] theorem build_none (n w) : build n none w = .mk n w := rfl
@[simp] theorem build_some (n q w) : build n (some q) w = .mkPrior n q w := rfl

@[simp] theorem request_build (n p w) : (build n p w).request = n := by
  cases p <;> rfl

@[simp] theorem priorRequest_build (n p w) : (build n p w).priorRequest = p := by
  cases p <;> rfl

@[simp] theorem postWaitWork_build (n p w) : (build n p w).postWaitWork = w := by
  cases p <;> rfl

/-- The copy constructor reproduces the chain exactly: same handles, and
the same shared `post_wait_work` pointers at every link. -/
theorem copy_fst (r : Request) (h : Heap) : (r.copy h).1 = r := by
  induction r generalizing h with
  | mk n w => rfl
  | mkPrior n q w ih => simp [copy, ih]

@[simp] theorem refs_mk (i n w) :
    (Request.mk n w).refs i = if w = some i then 1 else 0 := rfl
@[simp] theorem refs_mkPrior (i n q w) :
    (Request.mkPrior n q w).refs i = (if w = some i then 1 else 0) + q.refs i := rfl

theorem refs_build (i n p w) :
    (build n p w).refs i =
      ((if w = some i then 1 else 0) +
        match p with | none => 0 | some q => q.refs i) := by
  cases p <;> simp

@[simp] theorem spine_mk (n w) : (Request.mk n w).spine = [w] := rfl
@[simp] theorem spine_mkPrior (n q w) :
    (Request.mkPrior n q w).spine = w :: q.spine := rfl

end Request

/-! ### Heap delta helpers -/

/-- Increase a live work list's use count by `a`. -/
def bump (a : Nat) : Option WorkList → Option WorkList
  | none => none
  | some wl => some ⟨wl.first, wl.second + a⟩

/-- Decrease a live work list's use count by `d`, freeing when the
count is consumed entirely (sensible when `d ≤` the count). -/
def cut (d : Nat) : Option WorkList → Option WorkList
  | none => none
  | some wl => if 0 < d ∧ d = wl.second then none else some ⟨wl.first, wl.second - d⟩

/-- Mark every work slot as run and deleted. -/
def drainedWL (wl : WorkList) : WorkList :=
  ⟨wl.first.map (fun _ => none), wl.second⟩

@[simp] theorem bump_none (a) : bump a none = none := rfl
@[simp] theorem bump_some (a wl) : bump a (some wl) = some ⟨wl.first, wl.second + a⟩ := rfl
@[simp] theorem cut_none (d) : cut d none = none := rfl

@[simp] theorem bump_zero (x) : bump 0 x = x := by cases x <;> rfl

@[simp] theorem cut_zero (x) : cut 0 x = x := by
  cases x with
  | none => rfl
  | some wl => simp [cut]

theorem bump_bump (a b x) : bump a (bump b x) = bump (a + b) x := by
  cases x with
  | none => rfl
  | some wl => simp [bump, Nat.add_assoc, Nat.add_comm b a]

@[simp] theorem bump_isSome (a x) : (bump a x).isSome = x.isSome := by
  cases x <;> rfl

theorem cut_cut (a b : Nat) (x : Option WorkList)
    (hx : ∀ wl, x = some wl → a + b ≤ wl.second) :
    cut b (cut a x) = cut (a + b) x := by
  cases x with
  | none => rfl
  | some wl =>
    have hab := hx wl rfl
    obtain ⟨f, s⟩ := wl
    simp only at hab
    have e1 : cut a (some ⟨f, s⟩) =
        if 0 < a ∧ a = s then none else some ⟨f, s - a⟩ := rfl
    have e2 : cut b (some ⟨f, s - a⟩) =
        if 0 < b ∧ b = s - a then none else some ⟨f, s - a - b⟩ := rfl
    have e3 : cut (a + b) (some ⟨f, s⟩) =
        if 0 < a + b ∧ a + b = s then none else some ⟨f, s - (a + b)⟩ := rfl
    rw [e1, e3]
    by_cases h1 : 0 < a ∧ a = s
    · rw [if_pos h1, cut_none, if_pos (show 0 < a + b ∧ a + b = s by omega)]
    · rw [if_neg h1, e2]
      by_cases h2 : 0 < b ∧ b = s - a
      · rw [if_pos h2, if_pos (show 0 < a + b ∧ a + b = s by omega)]
      · rw [if_neg h2, if_neg (show ¬(0 < a + b ∧ a + b = s) by omega)]
        have hs : s - a - b = s - (a + b) := by omega
        rw [hs]

/-! ### Pointwise heap effects of the operations -/

namespace Heap

theorem incref_get_ne (h : Heap) (i k : Nat) (hik : i ≠ k) :
    (h.incref i).get k = h.get k := by
  cases hg : h.get i with
  | none => simp [incref, hg]
  | some wl => simp [incref, hg, get_set_ne h i k _ hik]

theorem incref_get_self (h : Heap) (i : Nat) (wl : WorkList)
    (hw : h.get i = some wl) :
    (h.incref i).get i = some ⟨wl.first, wl.second + 1⟩ := by
  have hlen := get_isSome_lt h i wl hw
  simp [incref, hw, get_set_self _ _ _ hlen]

theorem increfOpt_get (h : Heap) (o : Option Nat) (k : Nat) :
    (h.increfOpt o).get k = bump (if o = some k then 1 else 0) (h.get k) := by
  match o with
  | none => simp [increfOpt]
  | some i =>
    by_cases hik : i = k
    · subst hik
      cases hw : h.get i with
      | none => simp [increfOpt, incref, hw]
      | some wl => simp [increfOpt, incref_get_self h i wl hw, hw]
    · have hik' : ¬((some i : Option Nat) = some k) := by simpa using hik
      simp [increfOpt, incref_get_ne h i k hik, hik']

theorem releaseAt_fst_get_ne (h : Heap) (i k : Nat) (hik : i ≠ k) :
    ((h.releaseAt i).1).get k = h.get k := by
  cases hg : h.get i with
  | none => simp [releaseAt, hg]
  | some wl =>
    by_cases hz : wl.second - 1 = 0 <;>
      simp [releaseAt, hg, hz, get_set_ne h i k _ hik]

theorem releaseAt_fst_get_self (h : Heap) (i : Nat) (wl : WorkList)
    (hw : h.get i = some wl) :
    ((h.releaseAt i).1).get i =
      if wl.second - 1 = 0 then none else some ⟨wl.first, wl.second - 1⟩ := by
  have hlen := get_isSome_lt h i wl hw
  by_cases hz : wl.second - 1 = 0 <;>
    simp [releaseAt, hw, hz, get_set_self _ _ _ hlen]

theorem releaseAt_freed (h : Heap) (i : Nat) (wl : WorkList)
    (hw : h.get i = some wl) :
    (h.releaseAt i).2.1 = decide (wl.second - 1 = 0) := by
  by_cases hz : wl.second - 1 = 0 <;> simp [releaseAt, hw, hz]

theorem releaseAt_debug (h : Heap) (i : Nat) (wl : WorkList)
    (hw : h.get i = some wl) :
    (h.releaseAt i).2.2 =
      if wl.second - 1 = 0 then wl.first.all (·.isNone) else true := by
  by_cases hz : wl.second - 1 = 0 <;> simp [releaseAt, hw, hz]

end Heap

/-- The number of references the head link alone holds on cell `k`. -/
def ownRefs (k : Nat) (r : Request) : Nat :=
  if r.postWaitWork = some k then 1 else 0

theorem refs_head_tail (k : Nat) (r : Request) :
    r.refs k = ownRefs k r +
      (match r.priorRequest with | none => 0 | some q => q.refs k) := by
  cases r <;> simp [ownRefs, Request.refs]

namespace Request

theorem copy_snd_get (r : Request) (h : Heap) (k : Nat) :
    ((r.copy h).2).get k = bump (r.refs k) (h.get k) := by
  induction r generalizing h with
  | mk n w => simp [Request.copy, Heap.increfOpt_get]
  | mkPrior n q w ih =>
    have huf : (Request.mkPrior n q w).copy h =
        (.mkPrior n (q.copy h).1 w, ((q.copy h).2).increfOpt w) := rfl
    rw [huf]
    simp only [Heap.increfOpt_get, ih, bump_bump, refs_mkPrior]

theorem cleanup_req_request (r : Request) (h : Heap) :
    ((r.cleanup h).1).request = r.request := by
  cases hw : r.postWaitWork <;> simp [cleanup, hw]

theorem cleanup_req_prior (r : Request) (h : Heap) :
    ((r.cleanup h).1).priorRequest = r.priorRequest := by
  cases hw : r.postWaitWork <;> simp [cleanup, hw]

theorem cleanup_heap_get (r : Request) (h : Heap) (k : Nat)
    (hp : ∀ i wl, r.postWaitWork = some i → h.get i = some wl → 0 < wl.second) :
    ((r.cleanup h).2.1).get k = cut (ownRefs k r) (h.get k) := by
  cases hw : r.postWaitWork with
  | none => simp [cleanup, hw, ownRefs]
  | some i =>
    by_cases hik : i = k
    · subst hik
      cases hg : h.get i with
      | none =>
        simp [cleanup, hw, Heap.releaseAt, hg, ownRefs]
      | some wl =>
        have hpos := hp i wl hw hg
        have hself := Heap.releaseAt_fst_get_self h i wl hg
        simp only [cleanup, hw, hself, ownRefs, cut, hg]
        split_ifs with h1 h2 h2 <;> first | rfl | (exfalso; omega)
    · have hik' : ¬((some i : Option Nat) = some k) := by simpa using hik
      simp [cleanup, hw, Heap.releaseAt_fst_get_ne h i k hik, ownRefs, hik']

@[simp] theorem ownRefs_mk (k n w) :
    ownRefs k (Request.mk n w) = if w = some k then 1 else 0 := rfl

@[simp] theorem ownRefs_mkPrior (k n q w) :
    ownRefs k (Request.mkPrior n q w) = if w = some k then 1 else 0 := rfl

theorem cut_eq_some (d : Nat) (x : Option WorkList) (wl' : WorkList)
    (hx : cut d x = some wl') :
    ∃ wl, x = some wl ∧ wl'.first = wl.first ∧ wl'.second = wl.second - d := by
  cases x with
  | none => simp [cut] at hx
  | some wl =>
    refine ⟨wl, rfl, ?_⟩
    have e : cut d (some wl) =
        if 0 < d ∧ d = wl.second then none else some ⟨wl.first, wl.second - d⟩ := rfl
    rw [e] at hx
    by_cases hc : 0 < d ∧ d = wl.second
    · rw [if_pos hc] at hx
      exact absurd hx (by simp)
    · rw [if_neg hc] at hx
      injection hx with hx
      rw [← hx]
      exact ⟨rfl, rfl⟩

theorem destroy_mk (n : Nat) (w : Option Nat) (h : Heap) :
    (Request.mk n w).destroy h =
      ((cleanup (.mk n w) h).2.1, (cleanup (.mk n w) h).2.2) := rfl

theorem destroy_mkPrior (n : Nat) (q : Request) (w : Option Nat) (h : Heap) :
    (Request.mkPrior n q w).destroy h =
      ((q.destroy (cleanup (.mkPrior n q w) h).2.1).1,
       (cleanup (.mkPrior n q w) h).2.2 &&
         (q.destroy (cleanup (.mkPrior n q w) h).2.1).2) := rfl

/-- Destroying a chain removes exactly its references from every cell,
freeing the cells whose count it consumes entirely. -/
theorem destroy_fst_get (r : Request) (h : Heap) (k : Nat)
    (hb : ∀ j wl, h.get j = some wl → r.refs j ≤ wl.second) :
    ((r.destroy h).1).get k = cut (r.refs k) (h.get k) := by
  induction r generalizing h with
  | mk n w =>
    have hp : ∀ i wl, (Request.mk n w).postWaitWork = some i →
        h.get i = some wl → 0 < wl.second := by
      intro i wl hi hg
      have hle := hb i wl hg
      simp only [postWaitWork_mk] at hi
      simp only [refs_mk, if_pos hi] at hle
      omega
    rw [destroy_mk]
    have hc := cleanup_heap_get (.mk n w) h k hp
    simpa [ownRefs] using hc
  | mkPrior n q w ih =>
    have hp : ∀ i wl, (Request.mkPrior n q w).postWaitWork = some i →
        h.get i = some wl → 0 < wl.second := by
      intro i wl hi hg
      have hle := hb i wl hg
      simp only [postWaitWork_mkPrior] at hi
      simp only [refs_mkPrior, if_pos hi] at hle
      omega
    have hc := fun j => cleanup_heap_get (.mkPrior n q w) h j hp
    have hb' : ∀ j wl, ((cleanup (.mkPrior n q w) h).2.1).get j = some wl →
        q.refs j ≤ wl.second := by
      intro j wl hj
      rw [hc j] at hj
      obtain ⟨wl0, hg0, _, hsec⟩ := cut_eq_some _ _ _ hj
      have hle := hb j wl0 hg0
      simp only [refs_mkPrior] at hle
      rw [hsec]
      simp only [ownRefs_mkPrior]
      omega
    rw [destroy_mkPrior]
    rw [ih _ hb', hc k]
    rw [cut_cut]
    · have : ownRefs k (Request.mkPrior n q w) + q.refs k =
          (Request.mkPrior n q w).refs k := by
        simp only [ownRefs_mkPrior, refs_mkPrior]
      rw [this]
    · intro wl hwl
      have hle := hb k wl hwl
      simp only [refs_mkPrior] at hle
      simp only [ownRefs_mkPrior]
      omega

end Request

/-! ### Effects of drain, wait, test, add_post_wait_work, add_prior_request -/

@[simp] theorem drainedWL_first (wl : WorkList) :
    (drainedWL wl).first = wl.first.map (fun _ => none) := rfl

@[simp] theorem drainedWL_second (wl : WorkList) :
    (drainedWL wl).second = wl.second := rfl

theorem drainedWL_idem (wl : WorkList) :
    drainedWL (drainedWL wl) = drainedWL wl := by
  simp [drainedWL, List.map_map]

theorem drain_fst_get (h : Heap) (o : Option Nat) (k : Nat) :
    ((drain h o).1).get k =
      if o = some k then (h.get k).map drainedWL else h.get k := by
  match o with
  | none => simp [drain]
  | some i =>
    by_cases hik : i = k
    · subst hik
      cases hg : h.get i with
      | none => simp [drain, hg]
      | some wl =>
        have hlen := Heap.get_isSome_lt h i wl hg
        simp [drain, hg, Heap.get_set_self _ _ _ hlen, drainedWL]
    · have hik' : ¬((some i : Option Nat) = some k) := by simpa using hik
      cases hg : h.get i with
      | none => simp [drain, hg, hik']
      | some wl => simp [drain, hg, Heap.get_set_ne h i k _ hik, hik']

theorem drain_events (h : Heap) (o : Option Nat) :
    (drain h o).2.1 = runsOf h o := by
  match o with
  | none => rfl
  | some i => cases hg : h.get i <;> simp [drain, runsOf, hg]

namespace Request

theorem wait_mk (env : Nat → Nat) (n : Nat) (w : Option Nat) (h : Heap) :
    (Request.mk n w).wait env h =
      ⟨(drain h w).1, .mk MPI_REQUEST_NULL w, env n,
       Event.waited n :: (drain h w).2.1, (drain h w).2.2⟩ := rfl

theorem wait_mkPrior (env : Nat → Nat) (n : Nat) (q : Request) (w : Option Nat)
    (h : Heap) :
    (Request.mkPrior n q w).wait env h =
      ⟨(drain (q.wait env h).heap w).1,
       .mkPrior MPI_REQUEST_NULL (q.wait env h).req w, env n,
       (q.wait env h).trace ++ Event.waited n :: (drain (q.wait env h).heap w).2.1,
       (q.wait env h).ok && (drain (q.wait env h).heap w).2.2⟩ := rfl

theorem wait_stat (env : Nat → Nat) (r : Request) (h : Heap) :
    (r.wait env h).stat = env r.request := by
  cases r <;> rfl

theorem wait_req_spine (env : Nat → Nat) (r : Request) (h : Heap) :
    ((r.wait env h).req).spine = r.spine := by
  induction r generalizing h with
  | mk n w => rfl
  | mkPrior n q w ih => simp [wait_mkPrior, ih]

theorem wait_req_refs (env : Nat → Nat) (r : Request) (h : Heap) (k : Nat) :
    ((r.wait env h).req).refs k = r.refs k := by
  induction r generalizing h with
  | mk n w => rfl
  | mkPrior n q w ih => simp [wait_mkPrior, Request.refs, ih]

theorem wait_req_postWaitWork (env : Nat → Nat) (r : Request) (h : Heap) :
    ((r.wait env h).req).postWaitWork = r.postWaitWork := by
  cases r <;> rfl

theorem wait_heap_get (env : Nat → Nat) (r : Request) (h : Heap) (k : Nat) :
    ((r.wait env h).heap).get k =
      if (some k : Option Nat) ∈ r.spine then (h.get k).map drainedWL
      else h.get k := by
  induction r generalizing h with
  | mk n w =>
    simp only [wait_mk, drain_fst_get, spine_mk, List.mem_singleton]
    by_cases hw : w = some k
    · simp [hw]
    · have hw' : ¬((some k : Option Nat) = w) := fun hh => hw hh.symm
      simp [hw, hw']
  | mkPrior n q w ih =>
    simp only [wait_mkPrior, drain_fst_get, ih, spine_mkPrior, List.mem_cons]
    have hmap : ∀ x : Option WorkList,
        (x.map drainedWL).map drainedWL = x.map drainedWL := by
      intro x
      rw [Option.map_map]
      have : drainedWL ∘ drainedWL = drainedWL := funext drainedWL_idem
      rw [this]
    by_cases hw : w = some k <;> by_cases hq : (some k : Option Nat) ∈ q.spine
    · simp [hw, hq, hmap]
    · simp [hw, hq]
    · have hw' : ¬((some k : Option Nat) = w) := fun hh => hw hh.symm
      simp [hw, hw', hq]
    · have hw' : ¬((some k : Option Nat) = w) := fun hh => hw hh.symm
      simp [hw, hw', hq]

theorem test_heap (complete : Nat → Bool) (r : Request) (h : Heap) :
    (r.test complete h).2.2.1 = h := by
  simp only [test]
  split <;> rfl

theorem test_req_prior (complete : Nat → Bool) (r : Request) (h : Heap) :
    ((r.test complete h).2.1).priorRequest = r.priorRequest := by
  simp only [test]
  split <;> simp

theorem test_req_postWaitWork (complete : Nat → Bool) (r : Request) (h : Heap) :
    ((r.test complete h).2.1).postWaitWork = r.postWaitWork := by
  simp only [test]
  split <;> simp

theorem test_req_refs (complete : Nat → Bool) (r : Request) (h : Heap) (k : Nat) :
    ((r.test complete h).2.1).refs k = r.refs k := by
  simp only [test]
  split
  · rw [refs_build, refs_head_tail k r]
    cases r <;> simp [ownRefs]
  · rfl

theorem add_prior_request_fail (self req : Request) (h : Heap) (q : Request)
    (hq : req.priorRequest = some q) :
    self.add_prior_request req h = none := by
  cases req with
  | mk n w => simp at hq
  | mkPrior n p w => rfl

theorem add_prior_request_eq (self req : Request) (h : Heap)
    (hnp : req.priorRequest = none) :
    self.add_prior_request req h =
      some (build self.request
              (some (build req.request self.priorRequest req.postWaitWork))
              self.postWaitWork,
            h.increfOpt req.postWaitWork) := by
  cases req with
  | mk n w => rfl
  | mkPrior n p w => simp at hnp

end Request

/-! ### Reference-count bookkeeping -/

theorem totalRefs_nil (k : Nat) : totalRefs [] k = 0 := rfl

theorem totalRefs_cons (r : Request) (rs : List Request) (k : Nat) :
    totalRefs (r :: rs) k = r.refs k + totalRefs rs k := by
  simp [totalRefs]

theorem totalRefs_append (rs1 rs2 : List Request) (k : Nat) :
    totalRefs (rs1 ++ rs2) k = totalRefs rs1 k + totalRefs rs2 k := by
  simp [totalRefs]

theorem refs_le_totalRefs (s : Request) (rs : List Request) (k : Nat)
    (hs : s ∈ rs) : s.refs k ≤ totalRefs rs k :=
  List.single_le_sum (fun _ _ => Nat.zero_le _) _
    (List.mem_map_of_mem (Request.refs k) hs)

/-- Preservation when references are only added: the heap gains `a k`
on cell `k` and the roots gain `a k` references. -/
theorem wf_of_bump (h h' : Heap) (rs rs' : List Request) (a : Nat → Nat)
    (hwf : wf h rs)
    (hh : ∀ k, h'.get k = bump (a k) (h.get k))
    (ht : ∀ k, totalRefs rs' k = totalRefs rs k + a k)
    (ha : ∀ k, a k ≤ totalRefs rs k) :
    wf h' rs' := by
  intro k
  obtain ⟨h1, h2⟩ := hwf k
  constructor
  · intro wl' hwl'
    rw [hh k] at hwl'
    cases hg : h.get k with
    | none => rw [hg] at hwl'; simp at hwl'
    | some wl =>
      rw [hg] at hwl'
      simp only [bump_some, Option.some.injEq] at hwl'
      rw [← hwl']
      show wl.second + a k = totalRefs rs' k
      rw [ht k, h1 wl hg]
  · intro hn
    rw [hh k] at hn
    cases hg : h.get k with
    | none =>
      have h0 := h2 hg
      have := ha k
      rw [ht k]
      omega
    | some wl => rw [hg] at hn; simp at hn

/-- Preservation when references are only removed: the heap loses `d k`
on cell `k` (freeing at zero) and the roots lose `d k` references. -/
theorem wf_of_cut (h h' : Heap) (rs rs' : List Request) (d : Nat → Nat)
    (hwf : wf h rs)
    (hh : ∀ k, h'.get k = cut (d k) (h.get k))
    (ht : ∀ k, totalRefs rs k = totalRefs rs' k + d k) :
    wf h' rs' := by
  intro k
  obtain ⟨h1, h2⟩ := hwf k
  constructor
  · intro wl' hwl'
    rw [hh k] at hwl'
    obtain ⟨wl, hg, _, hs⟩ := Request.cut_eq_some _ _ _ hwl'
    have hv := h1 wl hg
    have := ht k
    omega
  · intro hn
    rw [hh k] at hn
    cases hg : h.get k with
    | none =>
      have h0 := h2 hg
      have := ht k
      omega
    | some wl =>
      rw [hg] at hn
      have e : cut (d k) (some wl) =
          if 0 < d k ∧ d k = wl.second then none
          else some ⟨wl.first, wl.second - d k⟩ := rfl
      rw [e] at hn
      by_cases hc : 0 < d k ∧ d k = wl.second
      · have hv := h1 wl hg
        have := ht k
        omega
      · rw [if_neg hc] at hn
        simp at hn

/-- Preservation when neither the counts nor the references change. -/
theorem wf_of_same (h h' : Heap) (rs rs' : List Request)
    (hwf : wf h rs)
    (hh : ∀ k, (h'.get k).map WorkList.second = (h.get k).map WorkList.second)
    (ht : ∀ k, totalRefs rs' k = totalRefs rs k) :
    wf h' rs' := by
  intro k
  obtain ⟨h1, h2⟩ := hwf k
  constructor
  · intro wl' hwl'
    have hmk := hh k
    rw [hwl'] at hmk
    cases hg : h.get k with
    | none => rw [hg] at hmk; simp at hmk
    | some wl =>
      rw [hg] at hmk
      simp only [Option.map_some', Option.some.injEq] at hmk
      rw [ht k, ← h1 wl hg, hmk]
  · intro hn
    have hmk := hh k
    rw [hn] at hmk
    cases hg : h.get k with
    | none =>
      rw [ht k]
      exact h2 hg
    | some wl => rw [hg] at hmk; simp at hmk

theorem refs_build_some (i n : Nat) (q : Request) (w : Option Nat) :
    (Request.build n (some q) w).refs i = (if w = some i then 1 else 0) + q.refs i := by
  simp [Request.build]

theorem refs_build_none (i n : Nat) (w : Option Nat) :
    (Request.build n none w).refs i = if w = some i then 1 else 0 := rfl

theorem ownRefs_le_refs (k : Nat) (r : Request) : ownRefs k r ≤ r.refs k := by
  cases r <;> simp [ownRefs, Request.refs]

/-- A fresh root with no references preserves the invariant. -/
theorem wf_newRoot (h : Heap) (rs : List Request) (r : Request)
    (hwf : wf h rs) (h0 : ∀ k, r.refs k = 0) : wf h (rs ++ [r]) := by
  apply wf_of_same h h rs _ hwf (fun _ => rfl)
  intro k
  rw [totalRefs_append, totalRefs_cons, totalRefs_nil, h0 k]
  omega

/-- Copy construction of a live root preserves the invariant. -/
theorem wf_copyNew (h : Heap) (rs : List Request) (r : Request) (hr : r ∈ rs)
    (hwf : wf h rs) : wf (r.copy h).2 (rs ++ [(r.copy h).1]) := by
  apply wf_of_bump h _ rs _ (fun k => r.refs k) hwf
  · intro k
    exact Request.copy_snd_get r h k
  · intro k
    rw [Request.copy_fst, totalRefs_append, totalRefs_cons, totalRefs_nil]
    omega
  · intro k
    exact refs_le_totalRefs r rs k hr

/-- Destroying a root preserves the invariant. -/
theorem wf_destroyAt (h : Heap) (pre post : List Request) (r : Request)
    (hwf : wf h (pre ++ r :: post)) : wf (r.destroy h).1 (pre ++ post) := by
  have hr : r ∈ pre ++ r :: post := by simp
  apply wf_of_cut h _ (pre ++ r :: post) (pre ++ post) (fun k => r.refs k) hwf
  · intro k
    apply Request.destroy_fst_get
    intro j wl hg
    rw [(hwf j).1 wl hg]
    exact refs_le_totalRefs r _ j hr
  · intro k
    rw [totalRefs_append, totalRefs_cons, totalRefs_append]
    omega

/-- `wait` on a root preserves the invariant (counts untouched, chain
shape untouched). -/
theorem wf_waitAt (h : Heap) (pre post : List Request) (r : Request)
    (env : Nat → Nat) (hwf : wf h (pre ++ r :: post)) :
    wf (r.wait env h).heap (pre ++ (r.wait env h).req :: post) := by
  apply wf_of_same h _ _ _ hwf
  · intro k
    rw [Request.wait_heap_get]
    by_cases hm : (some k : Option Nat) ∈ r.spine
    · rw [if_pos hm]
      cases h.get k <;> simp
    · rw [if_neg hm]
  · intro k
    rw [totalRefs_append, totalRefs_append, totalRefs_cons, totalRefs_cons,
        Request.wait_req_refs]

/-- `test` on a root preserves the invariant. -/
theorem wf_testAt (h : Heap) (pre post : List Request) (r : Request)
    (complete : Nat → Bool) (hwf : wf h (pre ++ r :: post)) :
    wf (r.test complete h).2.2.1 (pre ++ (r.test complete h).2.1 :: post) := by
  apply wf_of_same h _ _ _ hwf
  · intro k
    rw [Request.test_heap]
  · intro k
    rw [totalRefs_append, totalRefs_append, totalRefs_cons, totalRefs_cons,
        Request.test_req_refs]

/-! ### add_post_wait_work, add_prior_request, native assignment -/

theorem Heap.get_append_new (h : Heap) (x : Option WorkList) (k : Nat) :
    (Heap.mk (h.cells ++ [x])).get k = if k = h.cells.length then x else h.get k := by
  by_cases hk : k = h.cells.length
  · subst hk
    simp [Heap.get_eq, List.getElem?_concat_length]
  · rw [if_neg hk]
    rcases Nat.lt_or_ge k h.cells.length with hlt | hge
    · rw [Heap.get_eq, Heap.get_eq, List.getElem?_append_left hlt]
    · have hge2 : (h.cells ++ [x]).length ≤ k := by
        simp only [List.length_append, List.length_cons, List.length_nil]
        omega
      rw [Heap.get_eq, Heap.get_eq, List.getElem?_eq_none hge2,
          List.getElem?_eq_none hge]

theorem Heap.appendWork_second (h : Heap) (i w k : Nat) :
    ((h.appendWork i w).get k).map WorkList.second =
      (h.get k).map WorkList.second := by
  cases hg : h.get i with
  | none => simp [Heap.appendWork, hg]
  | some wl =>
    by_cases hik : i = k
    · subst hik
      have hlen := Heap.get_isSome_lt h i wl hg
      simp [Heap.appendWork, hg, Heap.get_set_self _ _ _ hlen]
    · simp [Heap.appendWork, hg, Heap.get_set_ne h i k _ hik]

theorem add_post_wait_work_some (r : Request) (w : Nat) (h : Heap) (i : Nat)
    (hi : r.postWaitWork = some i) :
    r.add_post_wait_work w h = (r, h.appendWork i w) := by
  simp [Request.add_post_wait_work, hi]

theorem add_post_wait_work_none (r : Request) (w : Nat) (h : Heap)
    (hw : r.postWaitWork = none) :
    r.add_post_wait_work w h =
      (Request.build r.request r.priorRequest (some h.cells.length),
       ⟨h.cells ++ [some ⟨[some w], 1⟩]⟩) := by
  have hget : (Heap.mk (h.cells ++ [some ⟨[], 1⟩])).get h.cells.length
      = some ⟨[], (1 : Nat)⟩ := by
    simp [Heap.get_eq, List.getElem?_concat_length]
  have hset : (h.cells ++ [some (⟨[], 1⟩ : WorkList)]).set h.cells.length
      (some ⟨[] ++ [some w], 1⟩) = h.cells ++ [some ⟨[some w], 1⟩] := by
    rw [List.set_append_right _ _ (Nat.le_refl _), Nat.sub_self]
    rfl
  simp only [Request.add_post_wait_work, hw, Heap.alloc, Heap.appendWork, hget,
    Heap.set, hset]

/-- Enqueueing work on a root preserves the invariant (lazy allocation
creates a fresh cell with use count 1 and one reference). -/
theorem wf_addWorkAt (h : Heap) (pre post : List Request) (r : Request) (w : Nat)
    (hwf : wf h (pre ++ r :: post)) :
    wf (r.add_post_wait_work w h).2
      (pre ++ (r.add_post_wait_work w h).1 :: post) := by
  cases hw : r.postWaitWork with
  | some i =>
    rw [add_post_wait_work_some r w h i hw]
    apply wf_of_same h _ _ _ hwf
    · intro k
      exact Heap.appendWork_second h i w k
    · intro k
      rfl
  | none =>
    rw [add_post_wait_work_none r w h hw]
    intro k
    obtain ⟨h1, h2⟩ := hwf k
    have hrefs : (Request.build r.request r.priorRequest (some h.cells.length)).refs k
        = r.refs k + (if k = h.cells.length then 1 else 0) := by
      cases r with
      | mk n w0 =>
        simp only [Request.postWaitWork_mk] at hw
        subst hw
        by_cases hk : k = h.cells.length
        · subst hk
          simp [Request.build, Request.refs]
        · have hk' : ¬(some h.cells.length = some k) := by
            simpa using (Ne.symm hk)
          simp [Request.build, Request.refs, hk, hk']
      | mkPrior n q w0 =>
        simp only [Request.postWaitWork_mkPrior] at hw
        subst hw
        by_cases hk : k = h.cells.length
        · subst hk
          simp [Request.build, Request.refs]
          omega
        · have hk' : ¬(some h.cells.length = some k) := by
            simpa using (Ne.symm hk)
          simp [Request.build, Request.refs, hk, hk']
    have hget := Heap.get_append_new h (some ⟨[some w], 1⟩) k
    by_cases hk : k = h.cells.length
    · rw [if_pos hk] at hget
      rw [if_pos hk] at hrefs
      have hdead : h.get k = none := by
        subst hk
        rw [Heap.get_eq, List.getElem?_eq_none (Nat.le_refl _)]
        rfl
      have h0 := h2 hdead
      rw [totalRefs_append, totalRefs_cons] at h0
      constructor
      · intro wl' hwl'
        rw [hget] at hwl'
        injection hwl' with hwl'
        rw [← hwl']
        show (1 : Nat) = totalRefs (pre ++
          (Request.build r.request r.priorRequest (some h.cells.length)) :: post) k
        rw [totalRefs_append, totalRefs_cons, hrefs]
        omega
      · intro hn
        rw [hget] at hn
        simp at hn
    · rw [if_neg hk] at hget
      rw [if_neg hk] at hrefs
      constructor
      · intro wl' hwl'
        rw [hget] at hwl'
        rw [totalRefs_append, totalRefs_cons, hrefs]
        have := h1 wl' hwl'
        rw [totalRefs_append, totalRefs_cons] at this
        omega
      · intro hn
        rw [hget] at hn
        have := h2 hn
        rw [totalRefs_append, totalRefs_cons] at this
        rw [totalRefs_append, totalRefs_cons, hrefs]
        omega

/-- Attaching a prior (taken from another live root) preserves the
invariant. -/
theorem wf_addPriorAt (h : Heap) (pre post : List Request) (r s r' : Request)
    (h' : Heap) (hs : s ∈ pre ++ post)
    (hres : r.add_prior_request s h = some (r', h'))
    (hwf : wf h (pre ++ r :: post)) : wf h' (pre ++ r' :: post) := by
  cases hsp : s.priorRequest with
  | some q =>
    rw [Request.add_prior_request_fail r s h q hsp] at hres
    exact absurd hres (by simp)
  | none =>
    rw [Request.add_prior_request_eq r s h hsp] at hres
    rw [Option.some.injEq, Prod.mk.injEq] at hres
    obtain ⟨hr', hh'⟩ := hres
    subst hr' hh'
    have hkey : ∀ k, (Request.build r.request
        (some (Request.build s.request r.priorRequest s.postWaitWork))
        r.postWaitWork).refs k = r.refs k + ownRefs k s := by
      intro k
      rw [refs_build_some]
      cases hrp : r.priorRequest with
      | none =>
        rw [refs_build_none, refs_head_tail k r, hrp]
        simp only [ownRefs]
        omega
      | some q0 =>
        rw [refs_build_some, refs_head_tail k r, hrp]
        simp only [ownRefs]
        omega
    apply wf_of_bump h _ _ _ (fun k => ownRefs k s) hwf
    · intro k
      rw [Heap.increfOpt_get]
      rfl
    · intro k
      rw [totalRefs_append, totalRefs_append, totalRefs_cons, totalRefs_cons,
          hkey k]
      omega
    · intro k
      have hle1 : ownRefs k s ≤ s.refs k := ownRefs_le_refs k s
      have hle2 : s.refs k ≤ totalRefs (pre ++ post) k :=
        refs_le_totalRefs s _ k hs
      have hle3 : totalRefs (pre ++ post) k ≤ totalRefs (pre ++ r :: post) k := by
        rw [totalRefs_append, totalRefs_append, totalRefs_cons]
        omega
      omega

theorem assignNative_eq (r : Request) (n : Nat) (h : Heap) :
    r.assignNative n h =
      (Request.build n ((r.cleanup h).1).priorRequest none,
       (r.cleanup h).2.1, (r.cleanup h).2.2) := rfl

/-- Assigning a bare native handle to a root preserves the invariant. -/
theorem wf_assignNativeAt (h : Heap) (pre post : List Request) (r : Request)
    (n : Nat) (hwf : wf h (pre ++ r :: post)) :
    wf (r.assignNative n h).2.1 (pre ++ (r.assignNative n h).1 :: post) := by
  have hr : r ∈ pre ++ r :: post := by simp
  have hp : ∀ i wl, r.postWaitWork = some i → h.get i = some wl →
      0 < wl.second := by
    intro i wl hi hg
    have hv := (hwf i).1 wl hg
    have hle : r.refs i ≤ totalRefs (pre ++ r :: post) i :=
      refs_le_totalRefs r _ i hr
    have ho : 0 < r.refs i := by
      rw [refs_head_tail i r]
      simp only [ownRefs, hi, if_true]
      omega
    omega
  apply wf_of_cut h _ _ _ (fun k => ownRefs k r) hwf
  · intro k
    rw [assignNative_eq]
    exact Request.cleanup_heap_get r h k hp
  · intro k
    rw [assignNative_eq]
    simp only
    rw [totalRefs_append, totalRefs_append, totalRefs_cons, totalRefs_cons,
        Request.cleanup_req_prior]
    have hz : (if (none : Option Nat) = some k then (1 : Nat) else 0) = 0 := by
      simp
    have hb : (Request.build n r.priorRequest none).refs k + ownRefs k r
        = r.refs k := by
      cases hrp : r.priorRequest with
      | none =>
        rw [refs_build_none, refs_head_tail k r, hrp, hz]
        simp only [ownRefs]
        omega
      | some q0 =>
        rw [refs_build_some, refs_head_tail k r, hrp, hz]
        simp only [ownRefs]
        omega
    omega

/-! ### Copy assignment preserves the invariant -/

theorem bump_cut_comm (a d : Nat) (x : Option WorkList)
    (hcond : ∀ wl, x = some wl → 0 < a → d < wl.second) :
    cut d (bump a x) = bump a (cut d x) := by
  cases x with
  | none => rfl
  | some wl =>
    rcases Nat.eq_zero_or_pos a with ha | ha
    · subst ha
      simp
    · have hd := hcond wl rfl ha
      have e1 : bump a (some wl) = some ⟨wl.first, wl.second + a⟩ := rfl
      have e2 : cut d (some ⟨wl.first, wl.second + a⟩) =
          if 0 < d ∧ d = wl.second + a then none
          else some ⟨wl.first, wl.second + a - d⟩ := rfl
      have e3 : cut d (some wl) =
          if 0 < d ∧ d = wl.second then none
          else some ⟨wl.first, wl.second - d⟩ := rfl
      rw [e1, e2, e3, if_neg (by omega), if_neg (by omega)]
      have : wl.second + a - d = wl.second - d + a := by omega
      rw [this]
      rfl

/-- Preservation when `a k` references are added and `d k` removed, the
removals never freeing a cell that keeps references. -/
theorem wf_of_bump_cut (h h' : Heap) (rs rs' : List Request) (a d : Nat → Nat)
    (hwf : wf h rs)
    (hh : ∀ k, h'.get k = bump (a k) (cut (d k) (h.get k)))
    (ht : ∀ k, totalRefs rs k + a k = totalRefs rs' k + d k)
    (had : ∀ k, a k + d k ≤ totalRefs rs k) :
    wf h' rs' := by
  intro k
  obtain ⟨h1, h2⟩ := hwf k
  constructor
  · intro wl' hwl'
    rw [hh k] at hwl'
    cases hg : h.get k with
    | none => rw [hg] at hwl'; simp at hwl'
    | some wl =>
      rw [hg] at hwl'
      have hv := h1 wl hg
      have e3 : cut (d k) (some wl) =
          if 0 < d k ∧ d k = wl.second then none
          else some ⟨wl.first, wl.second - d k⟩ := rfl
      rw [e3] at hwl'
      by_cases hc : 0 < d k ∧ d k = wl.second
      · rw [if_pos hc] at hwl'
        simp at hwl'
      · rw [if_neg hc] at hwl'
        simp only [bump_some, Option.some.injEq] at hwl'
        rw [← hwl']
        show wl.second - d k + a k = totalRefs rs' k
        have := ht k
        have := had k
        omega
  · intro hn
    rw [hh k] at hn
    cases hg : h.get k with
    | none =>
      have h0 := h2 hg
      have := ht k
      have := had k
      omega
    | some wl =>
      rw [hg] at hn
      have hv := h1 wl hg
      have e3 : cut (d k) (some wl) =
          if 0 < d k ∧ d k = wl.second then none
          else some ⟨wl.first, wl.second - d k⟩ := rfl
      rw [e3] at hn
      by_cases hc : 0 < d k ∧ d k = wl.second
      · have := ht k
        have := had k
        omega
      · rw [if_neg hc] at hn
        simp at hn

theorem assign_mk (tgt : Request) (n : Nat) (w : Option Nat) (h : Heap) :
    tgt.assign (.mk n w) h =
      (Request.build n ((tgt.cleanup h).1).priorRequest w,
       ((tgt.cleanup h).2.1).increfOpt w, (tgt.cleanup h).2.2) := rfl

theorem assign_mk_mkPrior (tn : Nat) (tw : Option Nat) (n : Nat) (q : Request)
    (w : Option Nat) (h : Heap) :
    (Request.mk tn tw).assign (.mkPrior n q w) h =
      (Request.build n (some (q.copy ((Request.mk tn tw).cleanup h).2.1).1) w,
       ((q.copy ((Request.mk tn tw).cleanup h).2.1).2).increfOpt w,
       ((Request.mk tn tw).cleanup h).2.2 && true) := by
  cases tw <;> rfl

theorem assign_mkPrior_mkPrior (tn : Nat) (tq : Request) (tw : Option Nat)
    (n : Nat) (q : Request) (w : Option Nat) (h : Heap) :
    (Request.mkPrior tn tq tw).assign (.mkPrior n q w) h =
      (Request.build n
         (some (q.copy ((Request.mkPrior tn tq tw).cleanup h).2.1).1) w,
       ((tq.destroy
           ((q.copy ((Request.mkPrior tn tq tw).cleanup h).2.1).2)).1).increfOpt w,
       ((Request.mkPrior tn tq tw).cleanup h).2.2 &&
         (tq.destroy
           ((q.copy ((Request.mkPrior tn tq tw).cleanup h).2.1).2)).2) := by
  cases tw <;> rfl

/-- Copy assignment from another live root preserves the invariant. -/
theorem wf_assignAt (h : Heap) (pre post : List Request) (r s : Request)
    (hs : s ∈ pre ++ post) (hwf : wf h (pre ++ r :: post)) :
    wf (r.assign s h).2.1 (pre ++ (r.assign s h).1 :: post) := by
  have hsum : ∀ k, r.refs k + s.refs k ≤ totalRefs (pre ++ r :: post) k := by
    intro k
    have h1 := refs_le_totalRefs s _ k hs
    rw [totalRefs_append] at h1
    rw [totalRefs_append, totalRefs_cons]
    omega
  have hkey : ∀ k wl, h.get k = some wl → r.refs k + s.refs k ≤ wl.second := by
    intro k wl hg
    rw [(hwf k).1 wl hg]
    exact hsum k
  have hp : ∀ i wl, r.postWaitWork = some i → h.get i = some wl →
      0 < wl.second := by
    intro i wl hi hg
    have := hkey i wl hg
    have ho : 0 < r.refs i := by
      rw [refs_head_tail i r]
      simp only [ownRefs, hi, if_true]
      omega
    omega
  have hc1 : ∀ k, ((r.cleanup h).2.1).get k = cut (ownRefs k r) (h.get k) :=
    fun k => Request.cleanup_heap_get r h k hp
  cases s with
  | mk sn sw =>
    rw [assign_mk]
    dsimp only
    apply wf_of_bump_cut h _ _ _ (fun k => if sw = some k then 1 else 0)
      (fun k => ownRefs k r) hwf
    · intro k
      rw [Heap.increfOpt_get, hc1 k]
    · intro k
      rw [totalRefs_append, totalRefs_append, totalRefs_cons, totalRefs_cons,
          Request.cleanup_req_prior]
      have hb : (Request.build sn r.priorRequest sw).refs k + ownRefs k r
          = r.refs k + (if sw = some k then 1 else 0) := by
        cases hrp : r.priorRequest with
        | none =>
          rw [refs_build_none, refs_head_tail k r, hrp]
          simp only [ownRefs]
          omega
        | some q0 =>
          rw [refs_build_some, refs_head_tail k r, hrp]
          simp only [ownRefs]
          omega
      omega
    · intro k
      have h1 := hsum k
      have h2 : ownRefs k r ≤ r.refs k := ownRefs_le_refs k r
      have h3 : (Request.mk sn sw).refs k = if sw = some k then 1 else 0 := rfl
      omega
  | mkPrior sn sq sw =>
    have hc2 : ∀ k, ((sq.copy ((r.cleanup h).2.1)).2).get k =
        bump (sq.refs k) (cut (ownRefs k r) (h.get k)) := by
      intro k
      rw [Request.copy_snd_get, hc1 k]
    cases r with
    | mk tn tw =>
      rw [assign_mk_mkPrior]
      dsimp only
      apply wf_of_bump_cut h _ _ _
        (fun k => sq.refs k + (if sw = some k then 1 else 0))
        (fun k => ownRefs k (Request.mk tn tw)) hwf
      · intro k
        rw [Heap.increfOpt_get, hc2 k, bump_bump,
            Nat.add_comm (if sw = some k then 1 else 0) (sq.refs k)]
      · intro k
        rw [totalRefs_append, totalRefs_append, totalRefs_cons, totalRefs_cons,
            refs_build_some, Request.copy_fst]
        have h3 : (Request.mk tn tw).refs k = ownRefs k (Request.mk tn tw) := by
          simp [ownRefs, Request.refs]
        omega
      · intro k
        have h1 := hsum k
        have h3 : (Request.mk tn tw).refs k = ownRefs k (Request.mk tn tw) := by
          simp [ownRefs, Request.refs]
        have h4 : (Request.mkPrior sn sq sw).refs k =
            (if sw = some k then 1 else 0) + sq.refs k := rfl
        omega
    | mkPrior tn tq tw =>
      have hb2 : ∀ j wl2,
          ((sq.copy ((Request.mkPrior tn tq tw).cleanup h).2.1).2).get j
            = some wl2 → tq.refs j ≤ wl2.second := by
        intro j wl2 hj
        rw [hc2 j] at hj
        cases hg : h.get j with
        | none => rw [hg] at hj; simp at hj
        | some wl =>
          rw [hg] at hj
          have hks := hkey j wl hg
          have h4 : (Request.mkPrior sn sq sw).refs j =
              (if sw = some j then 1 else 0) + sq.refs j := rfl
          have h5 : (Request.mkPrior tn tq tw).refs j =
              (if tw = some j then 1 else 0) + tq.refs j := rfl
          have h6 : ownRefs j (Request.mkPrior tn tq tw) =
              (if tw = some j then 1 else 0) := rfl
          have e3 : cut (ownRefs j (Request.mkPrior tn tq tw)) (some wl) =
              if 0 < ownRefs j (Request.mkPrior tn tq tw) ∧
                 ownRefs j (Request.mkPrior tn tq tw) = wl.second then none
              else some ⟨wl.first,
                wl.second - ownRefs j (Request.mkPrior tn tq tw)⟩ := rfl
          rw [e3] at hj
          by_cases hcnd : 0 < ownRefs j (Request.mkPrior tn tq tw) ∧
              ownRefs j (Request.mkPrior tn tq tw) = wl.second
          · rw [if_pos hcnd] at hj
            simp at hj
          · rw [if_neg hcnd] at hj
            simp only [bump_some, Option.some.injEq] at hj
            rw [← hj]
            show tq.refs j ≤
              wl.second - ownRefs j (Request.mkPrior tn tq tw) + sq.refs j
            rw [h6]
            omega
      have hh3 : ∀ k,
          ((tq.destroy
            ((sq.copy ((Request.mkPrior tn tq tw).cleanup h).2.1).2)).1).get k
          = bump (sq.refs k)
              (cut (ownRefs k (Request.mkPrior tn tq tw) + tq.refs k)
                (h.get k)) := by
        intro k
        have hcond : ∀ wl,
            cut (ownRefs k (Request.mkPrior tn tq tw)) (h.get k) = some wl →
            0 < sq.refs k → tq.refs k < wl.second := by
          intro wl hcg ha
          obtain ⟨wl0, hg0, _, hs0⟩ := Request.cut_eq_some _ _ _ hcg
          have hks := hkey k wl0 hg0
          have h4 : (Request.mkPrior sn sq sw).refs k =
              (if sw = some k then 1 else 0) + sq.refs k := rfl
          have h5 : (Request.mkPrior tn tq tw).refs k =
              (if tw = some k then 1 else 0) + tq.refs k := rfl
          have h6 : ownRefs k (Request.mkPrior tn tq tw) =
              (if tw = some k then 1 else 0) := rfl
          omega
        have hx : ∀ wl, h.get k = some wl →
            ownRefs k (Request.mkPrior tn tq tw) + tq.refs k ≤ wl.second := by
          intro wl hg
          have hks := hkey k wl hg
          have h5 : (Request.mkPrior tn tq tw).refs k =
              (if tw = some k then 1 else 0) + tq.refs k := rfl
          have h6 : ownRefs k (Request.mkPrior tn tq tw) =
              (if tw = some k then 1 else 0) := rfl
          omega
        rw [Request.destroy_fst_get tq _ k hb2, hc2 k,
            bump_cut_comm _ _ _ hcond, cut_cut _ _ _ hx]
      rw [assign_mkPrior_mkPrior]
      dsimp only
      apply wf_of_bump_cut h _ _ _
        (fun k => sq.refs k + (if sw = some k then 1 else 0))
        (fun k => ownRefs k (Request.mkPrior tn tq tw) + tq.refs k) hwf
      · intro k
        rw [Heap.increfOpt_get, hh3 k, bump_bump,
            Nat.add_comm (if sw = some k then 1 else 0) (sq.refs k)]
      · intro k
        rw [totalRefs_append, totalRefs_append, totalRefs_cons, totalRefs_cons,
            refs_build_some, Request.copy_fst]
        have h5 : (Request.mkPrior tn tq tw).refs k =
            (if tw = some k then 1 else 0) + tq.refs k := rfl
        have h6 : ownRefs k (Request.mkPrior tn tq tw) =
            (if tw = some k then 1 else 0) := rfl
        omega
      · intro k
        have h1 := hsum k
        have h4 : (Request.mkPrior sn sq sw).refs k =
            (if sw = some k then 1 else 0) + sq.refs k := rfl
        have h5 : (Request.mkPrior tn tq tw).refs k =
            (if tw = some k then 1 else 0) + tq.refs k := rfl
        have h6 : ownRefs k (Request.mkPrior tn tq tw) =
            (if tw = some k then 1 else 0) := rfl
        omega

/-- Every lifecycle step preserves the sharing invariant. -/
theorem wf_step (h : Heap) (rs : List Request) (h2 : Heap) (rs2 : List Request)
    (hwf : wf h rs) (hst : Step h rs h2 rs2) : wf h2 rs2 := by
  cases hst with
  | newEmpty _ =>
    exact wf_newRoot h rs Request.emptyReq hwf
      (fun k => by simp [Request.emptyReq, Request.refs])
  | newNative _ n =>
    exact wf_newRoot h rs (Request.ofNative n) hwf
      (fun k => by simp [Request.ofNative, Request.refs])
  | copyNew pre post r =>
    exact wf_copyNew h _ r (by simp) hwf
  | destroyAt pre post r =>
    exact wf_destroyAt h pre post r hwf
  | assignAt pre post r s hs =>
    exact wf_assignAt h pre post r s hs hwf
  | assignNativeAt pre post r n =>
    exact wf_assignNativeAt h pre post r n hwf
  | addPriorAt pre post r s r2 hs hres =>
    rename_i heq
    exact wf_addPriorAt h pre post r s r2 h2 hres heq hwf
  | addWorkAt pre post r w =>
    exact wf_addWorkAt h pre post r w hwf
  | waitAt pre post r env =>
    exact wf_waitAt h pre post r env hwf
  | testAt pre post r complete =>
    exact wf_testAt h pre post r complete hwf

/-! ### Trace refinement: wait() against the specified order -/

theorem mem_filterMap_id (l : List (Option Nat)) (i : Nat) :
    i ∈ l.filterMap id ↔ (some i : Option Nat) ∈ l := by
  simp [List.mem_filterMap]

theorem runsOf_congr (h1 h2 : Heap) (o : Option Nat)
    (hf : ∀ k, (h1.get k).map WorkList.first = (h2.get k).map WorkList.first) :
    runsOf h1 o = runsOf h2 o := by
  match o with
  | none => rfl
  | some i =>
    have hfi := hf i
    cases hg1 : h1.get i with
    | none =>
      cases hg2 : h2.get i with
      | none => simp [runsOf, hg1, hg2]
      | some wl2 => rw [hg1, hg2] at hfi; simp at hfi
    | some wl1 =>
      cases hg2 : h2.get i with
      | none => rw [hg1, hg2] at hfi; simp at hfi
      | some wl2 =>
        rw [hg1, hg2] at hfi
        simp only [Option.map_some', Option.some.injEq] at hfi
        simp [runsOf, hg1, hg2, hfi]

theorem specWaitTrace_congr (h1 h2 : Heap) (r : Request)
    (hf : ∀ k, (h1.get k).map WorkList.first = (h2.get k).map WorkList.first) :
    specWaitTrace h1 r = specWaitTrace h2 r := by
  induction r with
  | mk n w => simp [specWaitTrace, runsOf_congr h1 h2 w hf]
  | mkPrior n q w ih => simp [specWaitTrace, ih, runsOf_congr h1 h2 w hf]

/-- When no two links of the chain share a work list, `wait()` produces
exactly the specified trace: oldest prior first, each handle's own
completion followed by its queued work, this handle last. -/
theorem wait_trace_spec (env : Nat → Nat) (r : Request) (h : Heap)
    (hnd : (r.spine.filterMap id).Nodup) :
    (r.wait env h).trace = specWaitTrace h r := by
  induction r generalizing h with
  | mk n w =>
    rw [Request.wait_mk]
    dsimp only
    rw [drain_events]
    rfl
  | mkPrior n q w ih =>
    rw [Request.wait_mkPrior]
    dsimp only
    cases w with
    | none =>
      have hndq : (q.spine.filterMap id).Nodup := by
        simpa [List.filterMap_cons] using hnd
      simp [drain, runsOf, specWaitTrace, ih _ hndq]
    | some i =>
      rw [Request.spine_mkPrior, List.filterMap_cons] at hnd
      simp only [id] at hnd
      rw [List.nodup_cons] at hnd
      obtain ⟨hni, hndq⟩ := hnd
      have hmem : ¬((some i : Option Nat) ∈ q.spine) := by
        rw [← mem_filterMap_id]
        exact hni
      have hgi : ((q.wait env h).heap).get i = h.get i := by
        rw [Request.wait_heap_get, if_neg hmem]
      rw [drain_events]
      have hrs : runsOf (q.wait env h).heap (some i) = runsOf h (some i) := by
        simp only [runsOf, hgi]
      rw [hrs, ih _ hndq]
      rfl

/-! ### Chaining several requests, in attachment order -/

/-- Drive a sequence of `add_prior_request` calls, oldest attached
first (the spec's "C.add_prior_request(B); C.add_prior_request(A)"
scenario). -/
def attachAll (c : Request) (rs : List Request) (h : Heap) :
    Option (Request × Heap) :=
  match rs with
  | [] => some (c, h)
  | r :: rest =>
    match c.add_prior_request r h with
    | none => none
    | some (c', h') => attachAll c' rest h'

theorem attachAll_nil (c : Request) (h : Heap) :
    attachAll c [] h = some (c, h) := rfl

theorem attachAll_cons (c r : Request) (rest : List Request) (h : Heap) :
    attachAll c (r :: rest) h =
      match c.add_prior_request r h with
      | none => none
      | some (c', h') => attachAll c' rest h' := rfl

theorem attachAll_props (rs : List Request) : ∀ (c : Request) (h : Heap),
    (∀ r ∈ rs, r.priorRequest = none) →
    ∃ c' h', attachAll c rs h = some (c', h') ∧
      (∀ k, (h'.get k).map WorkList.first = (h.get k).map WorkList.first) ∧
      c'.spine = c.postWaitWork ::
        ((rs.map Request.postWaitWork).reverse ++
          (match c.priorRequest with | none => [] | some q => q.spine)) ∧
      specWaitTrace h' c' =
        (match c.priorRequest with
          | none => [] | some q => specWaitTrace h q) ++
        ((rs.map (fun r => Event.waited r.request ::
            runsOf h r.postWaitWork)).flatten
          ++ (Event.waited c.request :: runsOf h c.postWaitWork)) := by
  induction rs with
  | nil =>
    intro c h _
    refine ⟨c, h, rfl, fun k => rfl, ?_, ?_⟩
    · cases c <;> simp [Request.spine]
    · cases c <;> simp [specWaitTrace]
  | cons r rest ih =>
    intro c h hall
    have hr : r.priorRequest = none := hall r (by simp)
    have hfirst1 : ∀ k,
        ((h.increfOpt r.postWaitWork).get k).map WorkList.first =
          (h.get k).map WorkList.first := by
      intro k
      rw [Heap.increfOpt_get]
      cases h.get k <;> simp [bump]
    obtain ⟨c', h', hat, hfirst, hspine, htrace⟩ :=
      ih (Request.build c.request
            (some (Request.build r.request c.priorRequest r.postWaitWork))
            c.postWaitWork)
         (h.increfOpt r.postWaitWork)
         (fun x hx => hall x (by simp [hx]))
    refine ⟨c', h', ?_, ?_, ?_, ?_⟩
    · rw [attachAll_cons, Request.add_prior_request_eq c r h hr]
      exact hat
    · intro k
      rw [hfirst k, hfirst1 k]
    · rw [hspine]
      simp only [Request.postWaitWork_build, Request.priorRequest_build]
      have hls : (Request.build r.request c.priorRequest r.postWaitWork).spine
          = r.postWaitWork ::
            (match c.priorRequest with | none => [] | some q => q.spine) := by
        cases hcp : c.priorRequest <;> simp [Request.build, Request.spine]
      rw [hls]
      simp [List.append_assoc]
    · rw [htrace]
      have hsp2 : specWaitTrace (h.increfOpt r.postWaitWork)
            (Request.build r.request c.priorRequest r.postWaitWork)
          = specWaitTrace h
            (Request.build r.request c.priorRequest r.postWaitWork) :=
        specWaitTrace_congr _ _ _ hfirst1
      have hro : ∀ o, runsOf (h.increfOpt r.postWaitWork) o = runsOf h o :=
        fun o => runsOf_congr _ _ o hfirst1
      simp only [Request.priorRequest_build, Request.postWaitWork_build,
        Request.request_build, hsp2, hro]
      have hlt : specWaitTrace h
            (Request.build r.request c.priorRequest r.postWaitWork)
          = (match c.priorRequest with
              | none => [] | some q => specWaitTrace h q) ++
            (Event.waited r.request :: runsOf h r.postWaitWork) := by
        cases hcp : c.priorRequest <;>
          simp [Request.build, specWaitTrace]
      rw [hlt]
      simp [List.append_assoc]

/-! ### Drained lists never re-run work -/

theorem filterMap_ran_all_none (l : List (Option Nat))
    (hall : l.all (·.isNone) = true) :
    l.filterMap (fun it => it.map Event.ran) = [] := by
  induction l with
  | nil => rfl
  | cons a l ih =>
    simp only [List.all_cons, Bool.and_eq_true] at hall
    cases a with
    | none => simp [List.filterMap_cons, ih hall.2]
    | some x => exact absurd hall.1 (by simp)

theorem wait_no_ran_of_drained (env : Nat → Nat) (r : Request) (h : Heap)
    (hdr : ∀ i, (some i : Option Nat) ∈ r.spine →
      ∀ wl, h.get i = some wl → wl.first.all (·.isNone) = true) :
    ∀ wi, Event.ran wi ∉ (r.wait env h).trace := by
  induction r generalizing h with
  | mk n w =>
    intro wi
    rw [Request.wait_mk]
    dsimp only
    rw [drain_events]
    intro hmem
    rcases List.mem_cons.mp hmem with heq | hmem2
    · exact Event.noConfusion heq
    · cases w with
      | none => simp [runsOf] at hmem2
      | some i =>
        cases hg : h.get i with
        | none => simp [runsOf, hg] at hmem2
        | some wl =>
          have hdall := hdr i (by simp) wl hg
          simp [runsOf, hg, filterMap_ran_all_none wl.first hdall] at hmem2
  | mkPrior n q w ih =>
    intro wi
    rw [Request.wait_mkPrior]
    dsimp only
    intro hmem
    rcases List.mem_append.mp hmem with hl | hr2
    · exact ih _ (fun i hi wl hg =>
        hdr i (by rw [Request.spine_mkPrior]; exact List.mem_cons_of_mem w hi)
          wl hg) wi hl
    · rcases List.mem_cons.mp hr2 with heq | hmem2
      · exact Event.noConfusion heq
      · rw [drain_events] at hmem2
        cases w with
        | none => simp [runsOf] at hmem2
        | some i =>
          have hd2 : ∀ wl, ((q.wait env h).heap).get i = some wl →
              wl.first.all (·.isNone) = true := by
            intro wl hg2
            rw [Request.wait_heap_get] at hg2
            by_cases hm : (some i : Option Nat) ∈ q.spine
            · rw [if_pos hm] at hg2
              cases hg : h.get i with
              | none => rw [hg] at hg2; simp at hg2
              | some wl0 =>
                rw [hg] at hg2
                simp only [Option.map_some', Option.some.injEq] at hg2
                rw [← hg2]
                simp [drainedWL, List.all_eq_true]
            · rw [if_neg hm] at hg2
              exact hdr i (by simp) wl hg2
          cases hg2 : ((q.wait env h).heap).get i with
          | none => simp [runsOf, hg2] at hmem2
          | some wl =>
            simp [runsOf, hg2,
              filterMap_ran_all_none wl.first (hd2 wl hg2)] at hmem2

/-! ### The claims -/

/-- C1: `Request::wait()` first recursively waits on the prior chain
link if one exists, then blocks on this handle's own native operation
producing a Status, then runs every queued work item front-to-back
exactly once (releasing each after running), and returns this handle's
own Status, discarding the prior sub-operations' Statuses: the produced
trace equals the specified trace and the returned status is the
environment's status for this handle's own native request.  (Stated
for chains whose links do not alias one work list.) -/
theorem C1_wait_order (env : Nat → Nat) (r : Request) (h : Heap)
    (hnd : (r.spine.filterMap id).Nodup) :
    (r.wait env h).trace = specWaitTrace h r ∧
    (r.wait env h).stat = env r.request :=
  ⟨wait_trace_spec env r h hnd, Request.wait_stat env r h⟩

/-- Witness for C1 on a two-link chain with one work item per link. -/
theorem C1_wait_order_witness :
    ((Request.mkPrior 5 (.mk 3 (some 0)) (some 1)).wait (fun n => n + 100)
        ⟨[some ⟨[some 10], 1⟩, some ⟨[some 20], 1⟩]⟩).trace =
      specWaitTrace ⟨[some ⟨[some 10], 1⟩, some ⟨[some 20], 1⟩]⟩
        (Request.mkPrior 5 (.mk 3 (some 0)) (some 1)) ∧
    ((Request.mkPrior 5 (.mk 3 (some 0)) (some 1)).wait (fun n => n + 100)
        ⟨[some ⟨[some 10], 1⟩, some ⟨[some 20], 1⟩]⟩).stat =
      (fun n => n + 100) (Request.mkPrior 5 (.mk 3 (some 0)) (some 1)).request :=
  C1_wait_order (fun n => n + 100) (Request.mkPrior 5 (.mk 3 (some 0)) (some 1))
    ⟨[some ⟨[some 10], 1⟩, some ⟨[some 20], 1⟩]⟩ (by decide)

/-- C2: attaching requests (each owning no prior) with
`add_prior_request` and then calling `wait()` once completes the
attached requests and runs their queued work strictly in attachment
order, with this handle's own completion and work last. -/
theorem C2_attachment_order (env : Nat → Nat) (h : Heap) (c : Request)
    (rs : List Request) (hc : c.priorRequest = none)
    (hall : ∀ r ∈ rs, r.priorRequest = none)
    (hnd : ((c :: rs).filterMap Request.postWaitWork).Nodup) :
    ∃ c' h', attachAll c rs h = some (c', h') ∧
      (c'.wait env h').trace =
        (rs.map (fun r => Event.waited r.request ::
          runsOf h r.postWaitWork)).flatten ++
        (Event.waited c.request :: runsOf h c.postWaitWork) := by
  obtain ⟨c', h', hat, hfirst, hspine, htrace⟩ := attachAll_props rs c h hall
  refine ⟨c', h', hat, ?_⟩
  have hnd' : (c'.spine.filterMap id).Nodup := by
    rw [hspine, hc, List.append_nil]
    have hmapid : ((rs.map Request.postWaitWork).filterMap id)
        = rs.filterMap Request.postWaitWork := by
      rw [List.filterMap_map]
      rfl
    have hperm :
        ((c.postWaitWork ::
          (rs.map Request.postWaitWork).reverse).filterMap id).Perm
          ((c :: rs).filterMap Request.postWaitWork) := by
      rw [List.filterMap_cons, List.filterMap_cons]
      have htl : ((rs.map Request.postWaitWork).reverse.filterMap id).Perm
          (rs.filterMap Request.postWaitWork) := by
        rw [List.filterMap_reverse, hmapid]
        exact List.reverse_perm _
      cases c.postWaitWork with
      | none => exact htl
      | some i => exact htl.cons i
    exact hperm.nodup_iff.mpr hnd
  rw [wait_trace_spec env c' h' hnd', htrace, hc]
  simp

/-- Witness for C2: the spec's A/B/C scenario — attach B then A to C;
completion order is B, A, C, each handle's work right after its own
completion. -/
theorem C2_attachment_order_witness :
    ∃ c' h', attachAll (Request.mk 3 (some 2))
        [Request.mk 1 (some 0), Request.mk 2 (some 1)]
        ⟨[some ⟨[some 10], 1⟩, some ⟨[some 11], 1⟩, some ⟨[some 12], 1⟩]⟩
        = some (c', h') ∧
      (c'.wait (fun n => n + 100) h').trace =
        ([Request.mk 1 (some 0), Request.mk 2 (some 1)].map
          (fun r => Event.waited r.request ::
            runsOf ⟨[some ⟨[some 10], 1⟩, some ⟨[some 11], 1⟩, some ⟨[some 12], 1⟩]⟩
              r.postWaitWork)).flatten ++
        (Event.waited (Request.mk 3 (some 2)).request ::
          runsOf ⟨[some ⟨[some 10], 1⟩, some ⟨[some 11], 1⟩, some ⟨[some 12], 1⟩]⟩
            (Request.mk 3 (some 2)).postWaitWork) :=
  C2_attachment_order (fun n => n + 100)
    ⟨[some ⟨[some 10], 1⟩, some ⟨[some 11], 1⟩, some ⟨[some 12], 1⟩]⟩
    (Request.mk 3 (some 2)) [Request.mk 1 (some 0), Request.mk 2 (some 1)]
    (by decide) (by decide) (by decide)

/-- C3: `Request::test()` is non-blocking and reports only whether this
handle's own native operation completed; it leaves the heap (hence the
queued work list) untouched, waits on no prior link, and keeps both the
prior chain and the `post_wait_work` pointer unchanged. -/
theorem C3_test_frame (complete : Nat → Bool) (r : Request) (h : Heap) :
    (r.test complete h).2.2.1 = h ∧
    ((r.test complete h).2.1).priorRequest = r.priorRequest ∧
    ((r.test complete h).2.1).postWaitWork = r.postWaitWork ∧
    (r.test complete h).1 =
      (decide (r.request = MPI_REQUEST_NULL) || complete r.request) := by
  refine ⟨Request.test_heap complete r h, Request.test_req_prior complete r h,
    Request.test_req_postWaitWork complete r h, ?_⟩
  simp only [Request.test]
  split
  · next hv => exact hv.symm
  · next hv => simp at hv; simp [hv]

/-- C4: the shared work list's use count always equals the number of
chain links referencing it — every lifecycle step (construction, copy,
copy/native assignment, chaining, enqueueing work, wait, test,
destruction) preserves the invariant — and `cleanup` frees the list
exactly when the decremented count reaches zero, with the strict-mode
check that no unrun item remains firing exactly at that free. -/
theorem C4_refcount_invariant :
    (∀ (h : Heap) (rs : List Request) (h2 : Heap) (rs2 : List Request),
      wf h rs → Step h rs h2 rs2 → wf h2 rs2) ∧
    (∀ (h : Heap) (i : Nat) (wl : WorkList),
      h.get i = some wl → 0 < wl.second →
      ((((h.releaseAt i).1).get i = none) ↔ wl.second = 1) ∧
      (h.releaseAt i).2.2 =
        (if wl.second = 1 then wl.first.all (·.isNone) else true)) := by
  constructor
  · exact fun h rs h2 rs2 => wf_step h rs h2 rs2
  · intro h i wl hw hpos
    constructor
    · rw [Heap.releaseAt_fst_get_self h i wl hw]
      constructor
      · intro hnone
        by_cases hz : wl.second - 1 = 0
        · omega
        · rw [if_neg hz] at hnone
          exact absurd hnone (by simp)
      · intro h1
        rw [if_pos (by omega)]
    · rw [Heap.releaseAt_debug h i wl hw]
      by_cases hz : wl.second - 1 = 0
      · rw [if_pos hz, if_pos (by omega)]
      · rw [if_neg hz, if_neg (by omega)]

/-- Witness for C4: an empty world gains a fresh empty root, and a
work list with use count 1 is freed by its release. -/
theorem C4_refcount_invariant_witness :
    wf ⟨[]⟩ [Request.emptyReq] ∧
    (((Heap.mk [some ⟨[], 1⟩]).releaseAt 0).1).get 0 = none := by
  constructor
  · exact C4_refcount_invariant.1 ⟨[]⟩ [] ⟨[]⟩ [Request.emptyReq]
      (fun i => ⟨fun wl hw => Option.noConfusion hw, fun _ => rfl⟩)
      (Step.newEmpty ⟨[]⟩ [])
  · exact (C4_refcount_invariant.2 (Heap.mk [some ⟨[], 1⟩]) 0 ⟨[], 1⟩ rfl
      (by decide)).1.mpr rfl

/-- C5: copying a Request yields a handle with the same native handle,
the same `post_wait_work` pointer at every link (the work lists stay
shared), and a chain of the same shape — in the embedding the copy is
the identical value, ownership being implicit — while every work list
referenced `m` times by the chain gains exactly `m` to its use count
and no work list's contents change. -/
theorem C5_copy_shares_worklist (r : Request) (h : Heap) :
    (r.copy h).1 = r ∧
    (∀ k, ((r.copy h).2).get k = bump (r.refs k) (h.get k)) ∧
    (∀ k, (((r.copy h).2).get k).map WorkList.first =
      (h.get k).map WorkList.first) := by
  refine ⟨Request.copy_fst r h, fun k => Request.copy_snd_get r h k, ?_⟩
  intro k
  rw [Request.copy_snd_get r h k]
  cases h.get k <;> simp [bump]

/-- C6: `add_prior_request(req)` fails with InvariantViolation exactly
when `req` already owns a prior; when `req` owns no prior the call
succeeds, installing a privately owned copy of `req` as the new head of
the caller's chain, that copy owning the caller's previous chain head
as its own prior (and sharing `req`'s work list, whose count rises by
one). -/
theorem C6_add_prior_precondition (self req : Request) (h : Heap) :
    (req.priorRequest ≠ none → self.add_prior_request req h = none) ∧
    (req.priorRequest = none →
      self.add_prior_request req h =
        some (Request.build self.request
          (some (Request.build req.request self.priorRequest req.postWaitWork))
          self.postWaitWork,
          h.increfOpt req.postWaitWork)) := by
  constructor
  · intro hne
    cases hq : req.priorRequest with
    | none => exact absurd hq hne
    | some q => exact Request.add_prior_request_fail self req h q hq
  · intro hq
    exact Request.add_prior_request_eq self req h hq

/-- Witness for C6: attaching an already-chained request fails;
attaching a fresh one installs it as the new chain head. -/
theorem C6_add_prior_precondition_witness :
    (Request.mk 7 (some 0)).add_prior_request
        (Request.mkPrior 4 (.mk 1 none) none) ⟨[]⟩ = none ∧
    (Request.mk 7 (some 0)).add_prior_request (Request.mk 4 (some 1)) ⟨[]⟩ =
      some (Request.build 7
        (some (Request.build 4 none (some 1))) (some 0),
        (⟨[]⟩ : Heap).increfOpt (some 1)) :=
  ⟨(C6_add_prior_precondition (Request.mk 7 (some 0))
      (Request.mkPrior 4 (.mk 1 none) none) ⟨[]⟩).1 (by decide),
   (C6_add_prior_precondition (Request.mk 7 (some 0))
      (Request.mk 4 (some 1)) ⟨[]⟩).2 rfl⟩

/-- C7: assigning a bare native handle releases the work-list reference
(decrementing the use count and freeing it at zero), replaces the
native handle, nulls the `post_wait_work` pointer, and leaves the prior
chain attached. -/
theorem C7_assign_native (r : Request) (n : Nat) (h : Heap) :
    ((r.assignNative n h).1).request = n ∧
    ((r.assignNative n h).1).priorRequest = r.priorRequest ∧
    ((r.assignNative n h).1).postWaitWork = none ∧
    (r.postWaitWork = none → (r.assignNative n h).2.1 = h) ∧
    (∀ i wl, r.postWaitWork = some i → h.get i = some wl →
      (r.assignNative n h).2.1 =
        if wl.second - 1 = 0 then h.set i none
        else h.set i (some ⟨wl.first, wl.second - 1⟩)) := by
  refine ⟨?_, ?_, ?_, ?_, ?_⟩
  · rw [assignNative_eq]
    simp
  · rw [assignNative_eq]
    dsimp only
    rw [Request.priorRequest_build, Request.cleanup_req_prior]
  · rw [assignNative_eq]
    simp
  · intro hwn
    rw [assignNative_eq]
    dsimp only
    simp [Request.cleanup, hwn]
  · intro i wl hwi hg
    rw [assignNative_eq]
    dsimp only
    simp only [Request.cleanup, hwi, Heap.releaseAt, hg]
    by_cases hz : wl.second - 1 = 0
    · simp [hz]
    · simp [hz]

/-- Witness for C7: a native assignment decrements a shared count from
2 to 1 and keeps the handle fields as described. -/
theorem C7_assign_native_witness :
    (((Request.mk 9 (some 0)).assignNative 7 ⟨[some ⟨[some 4], 2⟩]⟩).1).request
      = 7 ∧
    ((Request.mk 9 (some 0)).assignNative 7 ⟨[some ⟨[some 4], 2⟩]⟩).2.1 =
      (if (2 : Nat) - 1 = 0 then (⟨[some ⟨[some 4], 2⟩]⟩ : Heap).set 0 none
       else (⟨[some ⟨[some 4], 2⟩]⟩ : Heap).set 0 (some ⟨[some 4], 2 - 1⟩)) :=
  ⟨(C7_assign_native (Request.mk 9 (some 0)) 7 ⟨[some ⟨[some 4], 2⟩]⟩).1,
   (C7_assign_native (Request.mk 9 (some 0)) 7 ⟨[some ⟨[some 4], 2⟩]⟩).2.2.2.2
     0 ⟨[some 4], 2⟩ rfl rfl⟩

theorem second_wait_no_ran (env env2 : Nat → Nat) (h : Heap) (r : Request) :
    ∀ wi, Event.ran wi ∉
      (((r.wait env h).req).wait env2 (r.wait env h).heap).trace := by
  apply wait_no_ran_of_drained
  intro i hi wl hg
  rw [Request.wait_req_spine] at hi
  rw [Request.wait_heap_get, if_pos hi] at hg
  cases hg0 : h.get i with
  | none => rw [hg0] at hg; exact Option.noConfusion hg
  | some wl0 =>
    rw [hg0] at hg
    simp only [Option.map_some', Option.some.injEq] at hg
    rw [← hg]
    simp [drainedWL, List.all_eq_true]

/-- C8: a second `wait()` on a handle whose `wait()` already completed
re-runs no work item: the first wait nulls every slot of every work
list on the chain, so the second wait's trace contains no run event —
each item runs exactly once across repeated waits. -/
theorem C8_work_runs_once (env env2 : Nat → Nat) (h : Heap) (r : Request) :
    ((((r.wait env h).req).wait env2 (r.wait env h).heap).trace).filter
      (fun e => match e with | Event.ran _ => true | Event.waited _ => false)
      = [] := by
  rw [List.filter_eq_nil_iff]
  intro a ha
  cases a with
  | waited n => simp
  | ran wi => exact absurd ha (second_wait_no_ran env env2 h r wi)

/-- C9: whenever `test()` reports completion, the stored native request
has been reset to `MPI_REQUEST_NULL` (MPI semantics of a successful
`MPI_Test`), so the debug assertion `_request == MPI_REQUEST_NULL`
never fires. -/
theorem C9_test_resets_handle (complete : Nat → Bool) (r : Request) (h : Heap)
    (hv : (r.test complete h).1 = true) :
    ((r.test complete h).2.1).request = MPI_REQUEST_NULL ∧
    (r.test complete h).2.2.2 = true := by
  simp only [Request.test] at hv ⊢
  split at hv
  · next hb =>
    rw [if_pos hb]
    constructor
    · simp
    · simp
  · next hb =>
    exact absurd hv (by simp)

/-- Witness for C9: testing an already-empty handle succeeds and the
handle reads `MPI_REQUEST_NULL`. -/
theorem C9_test_resets_handle_witness :
    (((Request.mk 5 none).test (fun _ => true) ⟨[]⟩).2.1).request
      = MPI_REQUEST_NULL ∧
    ((Request.mk 5 none).test (fun _ => true) ⟨[]⟩).2.2.2 = true :=
  C9_test_resets_handle (fun _ => true) (Request.mk 5 none) ⟨[]⟩ (by decide)

/-- C10: copy-assigning from a source that owns no prior chain leaves
the target's existing chain attached unchanged, while the native handle
and the `post_wait_work` pointer are replaced by the source's. -/
theorem C10_assign_keeps_chain (tgt src : Request) (h : Heap)
    (hsp : src.priorRequest = none) :
    ((tgt.assign src h).1).priorRequest = tgt.priorRequest ∧
    ((tgt.assign src h).1).request = src.request ∧
    ((tgt.assign src h).1).postWaitWork = src.postWaitWork := by
  cases src with
  | mk sn sw =>
    rw [assign_mk]
    dsimp only
    refine ⟨?_, by simp, by simp⟩
    rw [Request.priorRequest_build, Request.cleanup_req_prior]
  | mkPrior sn sq sw => exact absurd hsp (by simp)

/-- Witness for C10: assigning a chainless source onto a chained target
keeps the target's chain. -/
theorem C10_assign_keeps_chain_witness :
    (((Request.mkPrior 8 (.mk 2 none) (some 0)).assign (Request.mk 6 (some 1))
        ⟨[some ⟨[], 2⟩, some ⟨[some 3], 1⟩]⟩).1).priorRequest =
      (Request.mkPrior 8 (.mk 2 none) (some 0)).priorRequest ∧
    (((Request.mkPrior 8 (.mk 2 none) (some 0)).assign (Request.mk 6 (some 1))
        ⟨[some ⟨[], 2⟩, some ⟨[some 3], 1⟩]⟩).1).request =
      (Request.mk 6 (some 1)).request ∧
    (((Request.mkPrior 8 (.mk 2 none) (some 0)).assign (Request.mk 6 (some 1))
        ⟨[some ⟨[], 2⟩, some ⟨[some 3], 1⟩]⟩).1).postWaitWork =
      (Request.mk 6 (some 1)).postWaitWork :=
  C10_assign_keeps_chain (Request.mkPrior 8 (.mk 2 none) (some 0))
    (Request.mk 6 (some 1)) ⟨[some ⟨[], 2⟩, some ⟨[some 3], 1⟩]⟩ rfl
